import Mathlib

/-!
Verification of the record-normalization and entity-resolution pipeline of
the lead-sniper repository (`src/utils/helpers.py`, `src/processors/*.py`,
`src/main.py`).

The pandas `DataFrame` is shallowly embedded as a list of column names plus
a list of rows, where each row is an association list from column name to a
`Value` (a string, an integer, or the missing value `NaN`).  Python string
operations used by the code (`str.lower`, `str.strip`, substring search,
`re` digit matching) are embedded over `List Char`.  `str.lower` is modelled
on the ASCII and Cyrillic ranges, which covers every string this repository
manipulates.  Python floats in `normalize_revenue` are modelled by exact
arithmetic (the repository only scales decimal literals by powers of ten,
where IEEE doubles of this size behave exactly like the rationals).
-/

/-- A pandas cell value: a string, an integer, or the missing value `NaN`. -/
inductive Value where
  | str (s : String)
  | int (n : Int)
  | na
deriving DecidableEq, Repr

/-- A row of a data frame: an association list from column name to value. -/
abbrev Row : Type := List (String × Value)

/-- A data frame: ordered column names plus rows (each row keyed by column). -/
structure DataFrame where
  cols : List String
  rows : List Row
deriving DecidableEq

/-! ### Python string primitives -/

/-- Python `str.lower()` restricted to the ASCII and Cyrillic (А-Я, Ё)
ranges, the only alphabets appearing in this repository's data. -/
def pyLowerChar (c : Char) : Char :=
  if 'A' ≤ c ∧ c ≤ 'Z' then Char.ofNat (c.toNat + 32)
  else if 0x410 ≤ c.toNat ∧ c.toNat ≤ 0x42F then Char.ofNat (c.toNat + 0x20)
  else if c.toNat = 0x401 then Char.ofNat 0x451
  else c

/-- Python `str.lower()` over a character list. -/
def pyLower (l : List Char) : List Char := l.map pyLowerChar

/-- Python `str.strip()`: drop leading and trailing whitespace. -/
def pyStrip (l : List Char) : List Char :=
  ((l.dropWhile Char.isWhitespace).reverse.dropWhile Char.isWhitespace).reverse

/-- `startsWithCh pat l` : `pat` is a leading segment of `l`. -/
def startsWithCh : List Char → List Char → Bool
  | [], _ => true
  | _ :: _, [] => false
  | p :: ps, c :: cs => p = c && startsWithCh ps cs

/-- Python `pat in s` : substring search (used for keyword matching). -/
def hasSubCh (pat : List Char) : List Char → Bool
  | [] => pat.isEmpty
  | c :: cs => startsWithCh pat (c :: cs) || hasSubCh pat cs

/-- Python `str.replace("от", "")`: remove every (left-to-right,
non-overlapping) occurrence of the two-character pattern `от`. -/
def removeOt : List Char → List Char
  | [] => []
  | [c] => [c]
  | a :: b :: rest =>
    if a = 'о' ∧ b = 'т' then removeOt rest else a :: removeOt (b :: rest)

/-- Digit run to a natural number (`int(...)` of a digit string). -/
def digitsToNat (l : List Char) : Nat :=
  l.foldl (fun a c => 10 * a + (c.toNat - '0'.toNat)) 0

/-- The first match of the regex `(\d+\.?\d*)` starting at the current
position: maximal digit run, then an optional dot and a second digit run.
Returns (integer digits, fraction digits). -/
def parseNum (l : List Char) : List Char × List Char :=
  let p := l.span Char.isDigit
  match p.2 with
  | '.' :: rest => (p.1, rest.takeWhile Char.isDigit)
  | _ => (p.1, [])

/-- `re.search(r"(\d+\.?\d*)", s)`: find the first digit and parse the
decimal literal there; `none` when the string holds no digit. -/
def findNum : List Char → Option (List Char × List Char)
  | [] => none
  | c :: cs => if c.isDigit then some (parseNum (c :: cs)) else findNum cs

/-! ### `src/utils/helpers.py` -/

/-- `helpers.normalize_revenue`: lowercase and strip; remove spaces and
commas; at a hyphen or en-dash keep only the first range component; remove
the qualifier `от`; extract the first decimal number (else 0); scale by the
magnitude keyword found in the processed string; truncate to an integer.
The truncated product is computed exactly over `Nat`
(`(d*scale*10^m + f*scale) / 10^m` is `int(float * scale)` for the decimal
literals the repository feeds it). -/
def normalize_revenue (s0 : String) : Int :=
  if s0 = "" then 0
  else
    let s1 := pyStrip (pyLower s0.toList)
    let s2 := s1.filter (fun c => c ≠ ' ' && c ≠ ',')
    let s3 := if s2.any (fun c => c = '-' || c = '–') then
        s2.takeWhile (fun c => c ≠ '-' && c ≠ '–')
      else s2
    let s4 := if hasSubCh ['о', 'т'] s3 then removeOt s3 else s3
    match findNum s4 with
    | none => 0
    | some df =>
      let scale : Nat :=
        if hasSubCh "млрд".toList s4 || hasSubCh "billion".toList s4 then 1000000000
        else if hasSubCh "млн".toList s4 || hasSubCh "million".toList s4 then 1000000
        else if hasSubCh "тыс".toList s4 || hasSubCh "thousand".toList s4 then 1000
        else 1
      let m := df.2.length
      Int.ofNat ((digitsToNat df.1 * scale * 10 ^ m + digitsToNat df.2 * scale) / 10 ^ m)

/-- `helpers.clean_inn`: empty input stays empty; otherwise strip every
non-digit character and return the digits only when exactly 10 or 12
remain, else the empty string (`re.sub(r"\D", "", ...)` is modelled over
ASCII digits, the alphabet of registry identifiers). -/
def clean_inn (inn : String) : String :=
  if inn = "" then ""
  else
    let c := inn.toList.filter Char.isDigit
    if c.length = 10 ∨ c.length = 12 then String.mk c else ""

/-! ### Data-frame cell access -/

/-- Look up a cell by column name (first binding wins, as in a frame row). -/
def findCell (r : Row) (c : String) : Option Value :=
  match r with
  | [] => none
  | p :: ps => if p.1 = c then some p.2 else findCell ps c

/-- Cell value with absent cells read as the missing value `NaN`
(a well-formed frame row has a binding for every frame column). -/
def cellV (r : Row) (c : String) : Value := (findCell r c).getD Value.na

/-- Integer view of a cell, used as a sort key; non-integer cells read 0
(well-formedness below keeps the numeric columns integer-valued, matching
the integer dtype pandas gives them after the cleaner). -/
def cellInt (r : Row) (c : String) : Int :=
  match cellV r c with
  | Value.int n => n
  | _ => 0

/-- The column names a row binds, in order. -/
def rowKeys (r : Row) : List String := r.map Prod.fst

/-! ### `src/processors/deduplicator.py` -/

/-- The mask `df['inn'].notna() & (df['inn'] != '')` on one row: a non-empty
string passes, `NaN` fails, and a (never produced by the cleaner) integer
passes since `int != ''` is elementwise `True` in pandas. -/
def hasInnMask (r : Row) : Bool :=
  match cellV r "inn" with
  | Value.str s => decide (s ≠ "")
  | Value.int _ => true
  | Value.na => false

/-- The `sort_values(by=['revenue','revenue_year'], ascending=[False,False])`
comparison: `a` may precede `b` when `a`'s (revenue, revenue_year) key is
lexicographically at least `b`'s. -/
def dedupLe (a b : Row) : Bool :=
  if cellInt a "revenue" = cellInt b "revenue" then
    decide (cellInt b "revenue_year" ≤ cellInt a "revenue_year")
  else
    decide (cellInt b "revenue" < cellInt a "revenue")

/-- Insert a row into a list at the first position allowed by `le`. -/
def insertSorted (le : Row → Row → Bool) (r : Row) : List Row → List Row
  | [] => [r]
  | x :: xs => if le r x then r :: x :: xs else x :: insertSorted le r xs

/-- Comparison sort modelling pandas `sort_values` (whose default quicksort
promises only the ordering, not stability): insertion sort by `le`. -/
def sortRows (le : Row → Row → Bool) : List Row → List Row
  | [] => []
  | r :: rs => insertSorted le r (sortRows le rs)

/-- `drop_duplicates(subset, keep='first')`: keep each row whose key has not
been seen yet, scanning left to right (`seen` carries the keys already kept). -/
def keepFirst {α : Type} [DecidableEq α] (k : Row → α) :
    List Row → List α → List Row
  | [], _ => []
  | r :: rs, seen =>
    if k r ∈ seen then keepFirst k rs seen
    else r :: keepFirst k rs (k r :: seen)

/-- The identifier key used by `drop_duplicates(subset=['inn'])`. -/
def innKey (r : Row) : Value := cellV r "inn"

/-- Step 1 survivors: rows with an identifier, sorted by
(revenue desc, revenue_year desc), first row kept per distinct identifier.
The `len(df_with_inn) > 0` guard of the source is reproduced. -/
def innSurvivors (rows : List Row) : List Row :=
  let wi := rows.filter hasInnMask
  if wi.length > 0 then keepFirst innKey (sortRows dedupLe wi) [] else wi

/-- Step 1 of `Deduplicator.deduplicate`: identifier-deduplicated rows
recombined (by `pd.concat`) with the untouched identifier-less rows. -/
def innStageRows (rows : List Row) : List Row :=
  innSurvivors rows ++ rows.filter (fun r => !hasInnMask r)

/-- The computed column `df['name'].str.lower().str.strip()` on one row:
the `.str` accessor turns a non-string cell into `NaN`. -/
def nameNormVal (r : Row) : Value :=
  match cellV r "name" with
  | Value.str s => Value.str (String.mk (pyStrip (pyLower s.toList)))
  | _ => Value.na

/-- Column assignment `df['name_normalized'] = ...` on one row: any previous
binding is replaced, the new binding goes last. -/
def addNN (r : Row) : Row :=
  r.filter (fun p => p.1 ≠ "name_normalized") ++ [("name_normalized", nameNormVal r)]

/-- `df.drop(columns=['name_normalized'])` on one row. -/
def dropNN (r : Row) : Row := r.filter (fun p => p.1 ≠ "name_normalized")

/-- The name key read back from the materialized column. -/
def nnKey (r : Row) : Value := cellV r "name_normalized"

/-- Step 2 of `Deduplicator.deduplicate`: materialize `name_normalized`;
among the rows with no identifier keep the first row per distinct normalized
name (guarded by `mask_no_inn.sum() > 0` as in the source); recombine behind
the identifier-bearing rows; drop the temporary column. -/
def nameStageRows (rows : List Row) : List Row :=
  let rowsN := rows.map addNN
  let noInn := rowsN.filter (fun r => !hasInnMask r)
  let rows2 :=
    if noInn.length > 0 then
      rowsN.filter hasInnMask ++ keepFirst nnKey noInn []
    else rowsN
  rows2.map dropNN

/-- `Deduplicator.deduplicate`.  Step 1 runs only when column `inn` exists;
step 2 runs when column `name` exists but its `mask_no_inn` line reads
column `inn` unguarded, so a frame with `name` and no `inn` raises `KeyError`;
step 3 drops remaining full-row duplicates (first occurrence kept). -/
def deduplicate (df : DataFrame) : Except String DataFrame :=
  let rows1 := if "inn" ∈ df.cols then innStageRows df.rows else df.rows
  if "name" ∈ df.cols then
    if "inn" ∈ df.cols then
      Except.ok ⟨df.cols.filter (fun c => c ≠ "name_normalized"),
        keepFirst id (nameStageRows rows1) []⟩
    else
      Except.error "KeyError: inn"
  else
    Except.ok ⟨df.cols, keepFirst id rows1 []⟩

/-! ### `src/processors/validator.py` -/

/-- The hard-coded Russian location keyword list of `_filter_by_country`. -/
def russianKeywords : List String :=
  ["москва", "санкт-петербург", "спб", "россия", "russia",
   "екатеринбург", "новосибирск", "казань", "нижний новгород",
   "челябинск", "самара", "ростов", "уфа", "красноярск",
   "пермь", "воронеж", "волгоград", "краснодар", "саратов"]

/-- Row mask of `_filter_by_country`:
`contains(keywords, na=False) | isna | (region == '')`.  A string passes
when lowercased it holds a keyword or is empty; `NaN` passes via `isna`;
an integer fails every disjunct (`.str` gives `NaN`, `na=False`). -/
def countryMask (r : Row) : Bool :=
  match cellV r "region" with
  | Value.str s =>
    russianKeywords.any (fun k => hasSubCh k.toList (pyLower s.toList)) || decide (s = "")
  | Value.int _ => false
  | Value.na => true

/-- `DataValidator._filter_by_country`: skipped without a `region` column. -/
def filter_by_country (df : DataFrame) : DataFrame :=
  if "region" ∈ df.cols then ⟨df.cols, df.rows.filter countryMask⟩ else df

/-- Row mask of `_filter_by_revenue`: `df['revenue'] >= min_revenue`
(`NaN` compares `False`; the cleaner makes the column integer). -/
def revenueMask (minRev : Int) (r : Row) : Bool :=
  match cellV r "revenue" with
  | Value.int n => decide (minRev ≤ n)
  | _ => false

/-- `DataValidator._filter_by_revenue`: skipped without a `revenue` column. -/
def filter_by_revenue (minRev : Int) (df : DataFrame) : DataFrame :=
  if "revenue" ∈ df.cols then ⟨df.cols, df.rows.filter (revenueMask minRev)⟩ else df

/-- `set(SEGMENT_KEYWORDS.keys())` from `config.py`. -/
def validSegments : List String := ["BTL", "EVENT", "SOUVENIR", "FULL_CYCLE", "COMM_GROUP"]

/-- Row mask of `_validate_segment`: `df['segment_tag'].isin(valid_segments)`
(`NaN` and non-string cells are in no string set). -/
def segmentMask (r : Row) : Bool :=
  match cellV r "segment_tag" with
  | Value.str s => decide (s ∈ validSegments)
  | _ => false

/-- `DataValidator._validate_segment`: skipped without a `segment_tag` column. -/
def validate_segment (df : DataFrame) : DataFrame :=
  if "segment_tag" ∈ df.cols then ⟨df.cols, df.rows.filter segmentMask⟩ else df

/-- The liquidation keyword list of `_filter_active_companies`. -/
def inactiveKeywords : List String :=
  ["ликвидирован", "банкротств", "реорганизац", "liquidated", "bankrupt"]

/-- Row mask of `_filter_active_companies`:
`~contains(keywords, na=False) | isna | (status == '')`.  A string passes
unless it holds a liquidation keyword; `NaN` passes both via the negated
`na=False` and via `isna`; an integer passes via the negated `na=False`. -/
def activeMask (r : Row) : Bool :=
  match cellV r "status" with
  | Value.str s =>
    !(inactiveKeywords.any (fun k => hasSubCh k.toList (pyLower s.toList))) || decide (s = "")
  | Value.int _ => true
  | Value.na => true

/-- `DataValidator._filter_active_companies`: skipped without a `status` column. -/
def filter_active_companies (df : DataFrame) : DataFrame :=
  if "status" ∈ df.cols then ⟨df.cols, df.rows.filter activeMask⟩ else df

/-- `DataValidator.validate`: country, revenue, segment, then activity. -/
def validate (minRev : Int) (df : DataFrame) : DataFrame :=
  filter_active_companies (validate_segment (filter_by_revenue minRev (filter_by_country df)))

/-! ### `src/main.py`, step 5 (Ranker / Exporter) -/

/-- The fixed `column_order` list of `main.py`. -/
def column_order : List String :=
  ["inn", "name", "revenue_year", "revenue", "segment_tag", "source",
   "okved_main", "employees", "site", "description", "region",
   "contacts", "rating_ref", "okved_relevant"]

/-- `sort_values('revenue', ascending=False)` comparison. -/
def exportLe (a b : Row) : Bool :=
  decide (cellInt b "revenue" ≤ cellInt a "revenue")

/-- `df[final_columns]` on one row: reindex onto the selected columns. -/
def projectRow (cs : List String) (r : Row) : Row :=
  cs.map (fun c => (c, cellV r c))

/-- Step 5 of `main`: keep the `column_order` columns that exist, project
the frame onto them, and sort descending by `revenue` when that column is
present.  No row is added or removed. -/
def exportStage (df : DataFrame) : DataFrame :=
  let fc := column_order.filter (fun c => c ∈ df.cols)
  let d : DataFrame := ⟨fc, df.rows.map (projectRow fc)⟩
  if "revenue" ∈ d.cols then ⟨d.cols, sortRows exportLe d.rows⟩ else d

/-! ### Well-formed frames

The cleaner (`cleaner.py`) hands the deduplicator a frame whose rows all
bind exactly the frame's columns, whose `inn` and `name` columns exist,
whose numeric columns are integer-typed, and which has no column named
`name_normalized`.  Theorems about the deduplicator assume this shape. -/

/-- Is the cell an integer? -/
def isIntV : Value → Bool
  | Value.int _ => true
  | _ => false

/-- Well-formedness of a frame entering `Deduplicator.deduplicate`. -/
def WF (df : DataFrame) : Prop :=
  "inn" ∈ df.cols ∧ "name" ∈ df.cols ∧ "name_normalized" ∉ df.cols ∧
  (∀ r ∈ df.rows, rowKeys r = df.cols) ∧
  (∀ r ∈ df.rows, isIntV (cellV r "revenue") ∧ isIntV (cellV r "revenue_year"))

instance (df : DataFrame) : Decidable (WF df) := by
  unfold WF
  exact inferInstance

instance : DecidableEq (Except String DataFrame) := fun x y =>
  match x, y with
  | Except.ok a, Except.ok b =>
    if h : a = b then isTrue (by rw [h]) else isFalse (by simp [h])
  | Except.error a, Except.error b =>
    if h : a = b then isTrue (by rw [h]) else isFalse (by simp [h])
  | Except.ok _, Except.error _ => isFalse (by simp)
  | Except.error _, Except.ok _ => isFalse (by simp)

/-! ### Generic lemmas about the sorting and first-kept-duplicate scans -/

/-- `insertSorted` permutes a cons. -/
theorem insertSorted_perm (le : Row → Row → Bool) (r : Row) :
    ∀ l : List Row, (insertSorted le r l).Perm (r :: l) := by
  intro l
  induction l with
  | nil => simp [insertSorted]
  | cons x xs ih =>
    by_cases h : le r x
    · simp [insertSorted, h]
    · simp only [insertSorted, h, ite_false]
      exact (ih.cons x).trans (List.Perm.swap r x xs)

/-- `sortRows` permutes its input. -/
theorem sortRows_perm (le : Row → Row → Bool) :
    ∀ l : List Row, (sortRows le l).Perm l := by
  intro l
  induction l with
  | nil => simp [sortRows]
  | cons r rs ih =>
    exact (insertSorted_perm le r (sortRows le rs)).trans (ih.cons r)

/-- Membership is preserved by `sortRows`. -/
theorem mem_sortRows {le : Row → Row → Bool} {x : Row} {l : List Row} :
    x ∈ sortRows le l ↔ x ∈ l :=
  (sortRows_perm le l).mem_iff

/-- Inserting into a pairwise-`le` list keeps it pairwise, for a total
transitive comparison. -/
theorem insertSorted_pairwise {le : Row → Row → Bool}
    (hTot : ∀ a b, (le a b || le b a) = true)
    (hTrans : ∀ a b c, le a b = true → le b c = true → le a c = true)
    (r : Row) :
    ∀ l : List Row, l.Pairwise (fun a b => le a b = true) →
      (insertSorted le r l).Pairwise (fun a b => le a b = true) := by
  intro l
  induction l with
  | nil => intro _; simp [insertSorted]
  | cons x xs ih =>
    intro hp
    rcases List.pairwise_cons.mp hp with ⟨hx, hxs⟩
    by_cases h : le r x
    · simp only [insertSorted, h, ite_true]
      refine List.pairwise_cons.mpr ⟨?_, hp⟩
      intro y hy
      rcases List.mem_cons.mp hy with rfl | hy
      · exact h
      · exact hTrans r x y h (hx y hy)
    · simp only [insertSorted, h, ite_false]
      refine List.pairwise_cons.mpr ⟨?_, ih hxs⟩
      intro y hy
      have hy' : y = r ∨ y ∈ xs := by
        have := (insertSorted_perm le r xs).mem_iff.mp hy
        simpa using this
      rcases hy' with h' | hy'
      · rw [h']
        rcases Bool.or_eq_true_iff.mp (hTot r x) with h1 | h1
        · exact absurd h1 h
        · exact h1
      · exact hx y hy'

/-- A sorted row list is pairwise ordered, for a total transitive comparison. -/
theorem sortRows_pairwise {le : Row → Row → Bool}
    (hTot : ∀ a b, (le a b || le b a) = true)
    (hTrans : ∀ a b c, le a b = true → le b c = true → le a c = true) :
    ∀ l : List Row, (sortRows le l).Pairwise (fun a b => le a b = true) := by
  intro l
  induction l with
  | nil => simp [sortRows]
  | cons r rs ih => exact insertSorted_pairwise hTot hTrans r (sortRows le rs) ih

/-- The scan result is a sublist of the input. -/
theorem keepFirst_sublist {α : Type} [DecidableEq α] (k : Row → α) :
    ∀ (l : List Row) (seen : List α), (keepFirst k l seen).Sublist l := by
  intro l
  induction l with
  | nil => intro seen; simp [keepFirst]
  | cons r rs ih =>
    intro seen
    by_cases h : k r ∈ seen
    · simp only [keepFirst, h, ite_true]
      exact (ih seen).cons r
    · simp only [keepFirst, h, ite_false]
      exact (ih (k r :: seen)).cons₂ r

/-- Members of the scan result are members of the input. -/
theorem mem_of_mem_keepFirst {α : Type} [DecidableEq α] {k : Row → α}
    {x : Row} {l : List Row} {seen : List α}
    (h : x ∈ keepFirst k l seen) : x ∈ l :=
  (keepFirst_sublist k l seen).mem h

/-- Filtering the scan result at a single key value yields the first input
row at that key — or nothing when the key was pre-seen. -/
theorem keepFirst_filter_key {α : Type} [DecidableEq α] (k : Row → α) (v : α) :
    ∀ (l : List Row) (seen : List α),
      (keepFirst k l seen).filter (fun r => decide (k r = v)) =
        if v ∈ seen then []
        else (l.filter (fun r => decide (k r = v))).take 1 := by
  intro l
  induction l with
  | nil =>
    intro seen
    by_cases h : v ∈ seen <;> simp [keepFirst, h]
  | cons r rs ih =>
    intro seen
    by_cases hk : k r ∈ seen
    · simp only [keepFirst, hk, ite_true]
      rw [ih seen]
      by_cases hv : v ∈ seen
      · simp [hv]
      · have hrv : ¬ k r = v := fun h => hv (h ▸ hk)
        rw [if_neg hv, if_neg hv, List.filter_cons_of_neg (by simp [hrv])]
    · simp only [keepFirst, hk, ite_false]
      by_cases hrv : k r = v
      · have hv : ¬ v ∈ seen := fun h => hk (hrv ▸ h)
        have hv2 : v ∈ k r :: seen := by simp [hrv]
        rw [List.filter_cons_of_pos (by simp [hrv]),
          List.filter_cons_of_pos (by simp [hrv]),
          ih (k r :: seen), if_pos hv2, if_neg hv]
        simp
      · have hv2 : v ∈ k r :: seen ↔ v ∈ seen := by
          constructor
          · intro h
            rcases List.mem_cons.mp h with h | h
            · exact absurd h.symm hrv
            · exact h
          · exact List.mem_cons_of_mem _
        by_cases hv : v ∈ seen
        · rw [List.filter_cons_of_neg (by simp [hrv]),
            List.filter_cons_of_neg (by simp [hrv]),
            ih (k r :: seen), if_pos (hv2.mpr hv), if_pos hv]
        · rw [List.filter_cons_of_neg (by simp [hrv]),
            List.filter_cons_of_neg (by simp [hrv]),
            ih (k r :: seen), if_neg (fun h => hv (hv2.mp h)), if_neg hv]

/-- A full-row duplicate scan keeps (one copy of) every unseen row value. -/
theorem mem_keepFirst_id {x : Row} :
    ∀ {l : List Row} {seen : List Row}, x ∈ l → x ∉ seen →
      x ∈ keepFirst id l seen := by
  intro l
  induction l with
  | nil => intro seen h; simp at h
  | cons r rs ih =>
    intro seen hx hns
    by_cases hk : r ∈ seen
    · have hxr : x ≠ r := fun h => hns (h ▸ hk)
      have hx' : x ∈ rs := by
        rcases List.mem_cons.mp hx with h | h
        · exact absurd h hxr
        · exact h
      simp only [keepFirst, id_eq, hk, ite_true]
      exact ih hx' hns
    · simp only [keepFirst, id_eq, hk, ite_false]
      rcases List.mem_cons.mp hx with h | h
      · subst h
        exact List.mem_cons_self x _
      · by_cases hxr : x = r
        · exact List.mem_cons.mpr (Or.inl hxr)
        · refine List.mem_cons_of_mem r (ih h ?_)
          intro hc
          rcases List.mem_cons.mp hc with hc | hc
          · exact hxr hc
          · exact hns hc

/-- A sublist of a singleton containing its element is that singleton. -/
theorem sublist_singleton_of_mem {x : Row} {l : List Row}
    (hs : l.Sublist [x]) (hm : x ∈ l) : l = [x] := by
  rcases List.sublist_singleton.mp hs with h | h
  · subst h; simp at hm
  · exact h

/-! ### Cell-access invariance under the temporary `name_normalized` column -/

/-- Removing the `name_normalized` bindings leaves other lookups unchanged. -/
theorem findCell_dropNN (r : Row) (c : String) (hc : c ≠ "name_normalized") :
    findCell (dropNN r) c = findCell r c := by
  induction r with
  | nil => rfl
  | cons p ps ih =>
    by_cases hp : p.1 = "name_normalized"
    · have hpc : ¬ p.1 = c := fun h => hc (h ▸ hp.symm ▸ rfl)
      simp only [dropNN] at ih ⊢
      rw [List.filter_cons_of_neg (by simp [hp]), ih, findCell, if_neg hpc]
    · simp only [dropNN] at ih ⊢
      rw [List.filter_cons_of_pos (by simp [hp]), findCell, findCell]
      by_cases hpc : p.1 = c
      · rw [if_pos hpc, if_pos hpc]
      · rw [if_neg hpc, if_neg hpc, ih]

/-- Looking up in an appended row searches left to right. -/
theorem findCell_append (r1 r2 : Row) (c : String) :
    findCell (r1 ++ r2) c =
      match findCell r1 c with
      | some v => some v
      | none => findCell r2 c := by
  induction r1 with
  | nil => rfl
  | cons p ps ih =>
    show findCell (p :: (ps ++ r2)) c = _
    rw [findCell, findCell]
    by_cases hpc : p.1 = c
    · rw [if_pos hpc, if_pos hpc]
    · rw [if_neg hpc, if_neg hpc, ih]

/-- Assigning the `name_normalized` column leaves other lookups unchanged. -/
theorem findCell_addNN (r : Row) (c : String) (hc : c ≠ "name_normalized") :
    findCell (addNN r) c = findCell r c := by
  show findCell (dropNN r ++ [("name_normalized", nameNormVal r)]) c = _
  rw [findCell_append, findCell_dropNN r c hc]
  cases h : findCell r c with
  | some v => rfl
  | none =>
    show findCell [("name_normalized", nameNormVal r)] c = none
    rw [findCell, if_neg (fun h2 => hc h2.symm)]
    rfl

/-- Other cells read the same through the column assignment. -/
theorem cellV_addNN (r : Row) (c : String) (hc : c ≠ "name_normalized") :
    cellV (addNN r) c = cellV r c := by
  unfold cellV
  rw [findCell_addNN r c hc]

/-- Other cells read the same through the column removal. -/
theorem cellV_dropNN (r : Row) (c : String) (hc : c ≠ "name_normalized") :
    cellV (dropNN r) c = cellV r c := by
  unfold cellV
  rw [findCell_dropNN r c hc]

/-- A row that never bound `name_normalized` has no such binding to find. -/
theorem findCell_none_of_not_key (r : Row) (c : String) (h : c ∉ rowKeys r) :
    findCell r c = none := by
  induction r with
  | nil => rfl
  | cons p ps ih =>
    have h1 : ¬ p.1 = c := by
      intro hp
      exact h (by simp [rowKeys, hp])
    have h2 : c ∉ rowKeys ps := by
      intro hp
      exact h (by simp [rowKeys] at hp ⊢; exact Or.inr hp)
    rw [findCell, if_neg h1, ih h2]

/-- The materialized normalized-name cell reads back the computed key. -/
theorem cellV_addNN_nn (r : Row) :
    cellV (addNN r) "name_normalized" = nameNormVal r := by
  unfold cellV
  show (findCell (dropNN r ++ [("name_normalized", nameNormVal r)]) _).getD _ = _
  rw [findCell_append]
  have h : findCell (dropNN r) "name_normalized" = none := by
    apply findCell_none_of_not_key
    intro hmem
    simp only [dropNN, rowKeys] at hmem
    rcases List.mem_map.mp hmem with ⟨p, hp, hp1⟩
    have := List.of_mem_filter hp
    simp [hp1] at this
  rw [h]
  rfl

/-- Dropping the column just after assigning it restores the original row,
when the row did not bind the column before. -/
theorem dropNN_addNN (r : Row) (h : "name_normalized" ∉ rowKeys r) :
    dropNN (addNN r) = r := by
  show List.filter _ (List.filter _ r ++ [("name_normalized", nameNormVal r)]) = r
  rw [List.filter_append]
  have h2 : ∀ p ∈ r, (decide (p.1 ≠ "name_normalized")) = true := by
    intro p hp
    simp only [decide_eq_true_eq]
    intro hk
    exact h (List.mem_map.mpr ⟨p, hp, hk⟩)
  rw [List.filter_eq_self.mpr h2, List.filter_eq_self.mpr h2]
  simp

/-- `hasInnMask` only reads the `inn` cell, so it passes through both row
transformations of the name stage. -/
theorem hasInnMask_addNN (r : Row) : hasInnMask (addNN r) = hasInnMask r := by
  unfold hasInnMask
  rw [cellV_addNN r "inn" (by decide)]

theorem hasInnMask_dropNN (r : Row) : hasInnMask (dropNN r) = hasInnMask r := by
  unfold hasInnMask
  rw [cellV_dropNN r "inn" (by decide)]

/-- `innKey` passes through both row transformations of the name stage. -/
theorem innKey_addNN (r : Row) : innKey (addNN r) = innKey r := by
  unfold innKey
  exact cellV_addNN r "inn" (by decide)

theorem innKey_dropNN (r : Row) : innKey (dropNN r) = innKey r := by
  unfold innKey
  exact cellV_dropNN r "inn" (by decide)

/-- The computed name key reads only the `name` cell. -/
theorem nameNormVal_addNN (r : Row) : nameNormVal (addNN r) = nameNormVal r := by
  unfold nameNormVal
  rw [cellV_addNN r "name" (by decide)]

theorem nameNormVal_dropNN (r : Row) : nameNormVal (dropNN r) = nameNormVal r := by
  unfold nameNormVal
  rw [cellV_dropNN r "name" (by decide)]

/-- The materialized key column agrees with the computed key. -/
theorem nnKey_addNN (r : Row) : nnKey (addNN r) = nameNormVal r :=
  cellV_addNN_nn r

/-! ### The sort comparisons are total and transitive -/

theorem dedupLe_total (a b : Row) : (dedupLe a b || dedupLe b a) = true := by
  unfold dedupLe
  by_cases h : cellInt a "revenue" = cellInt b "revenue"
  · rw [if_pos h, if_pos h.symm]
    simp only [Bool.or_eq_true, decide_eq_true_eq]
    omega
  · rw [if_neg h, if_neg (fun h2 => h h2.symm)]
    simp only [Bool.or_eq_true, decide_eq_true_eq]
    omega

theorem dedupLe_trans (a b c : Row) (h1 : dedupLe a b = true)
    (h2 : dedupLe b c = true) : dedupLe a c = true := by
  unfold dedupLe at h1 h2 ⊢
  by_cases hab : cellInt a "revenue" = cellInt b "revenue"
  · rw [if_pos hab] at h1
    by_cases hbc : cellInt b "revenue" = cellInt c "revenue"
    · rw [if_pos hbc] at h2
      rw [if_pos (hab.trans hbc)]
      simp only [decide_eq_true_eq] at h1 h2 ⊢
      omega
    · rw [if_neg hbc] at h2
      rw [if_neg (fun h => hbc (hab.symm.trans h))]
      simp only [decide_eq_true_eq] at h1 h2 ⊢
      omega
  · rw [if_neg hab] at h1
    by_cases hbc : cellInt b "revenue" = cellInt c "revenue"
    · rw [if_pos hbc] at h2
      rw [if_neg (fun h => hab (h.trans hbc.symm))]
      simp only [decide_eq_true_eq] at h1 ⊢
      omega
    · rw [if_neg hbc] at h2
      simp only [decide_eq_true_eq] at h1 h2
      rw [if_neg (by intro h; omega)]
      simp only [decide_eq_true_eq]
      omega

theorem exportLe_total (a b : Row) : (exportLe a b || exportLe b a) = true := by
  unfold exportLe
  simp only [Bool.or_eq_true, decide_eq_true_eq]
  omega

theorem exportLe_trans (a b c : Row) (h1 : exportLe a b = true)
    (h2 : exportLe b c = true) : exportLe a c = true := by
  unfold exportLe at h1 h2 ⊢
  simp only [decide_eq_true_eq] at h1 h2 ⊢
  omega

/-! ### Row predicates used in the resolver claims -/

/-- "This row carries identifier `i`" (a non-empty `i` in the claims). -/
def pInn (i : String) (r : Row) : Bool := decide (cellV r "inn" = Value.str i)

/-- "This row is identifier-less and normalizes its name to `n`." -/
def pNoN (n : String) (r : Row) : Bool :=
  !hasInnMask r && decide (nameNormVal r = Value.str n)

theorem hasInn_of_pInn {i : String} (hi : i ≠ "") {r : Row}
    (h : pInn i r = true) : hasInnMask r = true := by
  unfold pInn at h
  unfold hasInnMask
  rw [decide_eq_true_eq] at h
  rw [h]
  simpa using hi

/-! ### Transport of the claim filters through the resolver stages -/

/-- The `len(df_with_inn) > 0` guard is immaterial: on an empty partition
the sort-and-scan is empty too. -/
theorem innSurvivors_eq (rows : List Row) :
    innSurvivors rows =
      keepFirst innKey (sortRows dedupLe (rows.filter hasInnMask)) [] := by
  unfold innSurvivors
  by_cases h : (rows.filter hasInnMask).length > 0
  · rw [if_pos h]
  · rw [if_neg h]
    have h0 : rows.filter hasInnMask = [] := by
      rcases Nat.eq_zero_or_pos (rows.filter hasInnMask).length with h1 | h1
      · exact List.length_eq_zero.mp h1
      · exact absurd h1 h
    rw [h0]
    rfl

/-- Identifier-stage survivors come from the identifier-bearing partition. -/
theorem mem_innSurvivors {x : Row} {rows : List Row}
    (h : x ∈ innSurvivors rows) : x ∈ rows.filter hasInnMask := by
  rw [innSurvivors_eq] at h
  exact mem_sortRows.mp (mem_of_mem_keepFirst h)

theorem hasInn_of_mem_innSurvivors {x : Row} {rows : List Row}
    (h : x ∈ innSurvivors rows) : hasInnMask x = true :=
  (List.mem_filter.mp (mem_innSurvivors h)).2

/-- The identifier stage only rearranges and drops input rows. -/
theorem mem_of_mem_innStage {x : Row} {rows : List Row}
    (h : x ∈ innStageRows rows) : x ∈ rows := by
  unfold innStageRows at h
  rcases List.mem_append.mp h with h | h
  · exact (List.mem_filter.mp (mem_innSurvivors h)).1
  · exact (List.mem_filter.mp h).1

/-- After the identifier stage, the identifier-bearing rows are exactly the
identifier-stage survivors. -/
theorem filter_hasInn_innStage (rows : List Row) :
    (innStageRows rows).filter hasInnMask = innSurvivors rows := by
  unfold innStageRows
  rw [List.filter_append]
  have h1 : (innSurvivors rows).filter hasInnMask = innSurvivors rows :=
    List.filter_eq_self.mpr (fun x hx => hasInn_of_mem_innSurvivors hx)
  have h2 : (rows.filter (fun r => !hasInnMask r)).filter hasInnMask = [] := by
    rw [List.filter_eq_nil_iff]
    intro x hx
    have hb := (List.mem_filter.mp hx).2
    simp only [Bool.not_eq_true'] at hb
    simp [hb]
  rw [h1, h2, List.append_nil]

/-- After the identifier stage, the identifier-less rows are untouched. -/
theorem filter_noInn_innStage (rows : List Row) :
    (innStageRows rows).filter (fun r => !hasInnMask r) =
      rows.filter (fun r => !hasInnMask r) := by
  unfold innStageRows
  rw [List.filter_append]
  have h1 : (innSurvivors rows).filter (fun r => !hasInnMask r) = [] := by
    rw [List.filter_eq_nil_iff]
    intro x hx
    simp [hasInn_of_mem_innSurvivors hx]
  have h2 : (rows.filter (fun r => !hasInnMask r)).filter (fun r => !hasInnMask r) =
      rows.filter (fun r => !hasInnMask r) :=
    List.filter_eq_self.mpr (fun x hx => (List.mem_filter.mp hx).2)
  rw [h1, h2, List.nil_append]

/-- Filtering the identifier stage at one (non-empty) identifier value sees
only the identifier-stage survivors. -/
theorem filter_pInn_innStage (rows : List Row) {i : String} (hi : i ≠ "") :
    (innStageRows rows).filter (pInn i) = (innSurvivors rows).filter (pInn i) := by
  unfold innStageRows
  rw [List.filter_append]
  have h2 : (rows.filter (fun r => !hasInnMask r)).filter (pInn i) = [] := by
    rw [List.filter_eq_nil_iff]
    intro x hx
    intro hcontra
    have := hasInn_of_pInn hi hcontra
    have h3 := (List.mem_filter.mp hx).2
    rw [this] at h3
    exact absurd h3 (by decide)
  rw [h2, List.append_nil]

/-! ### Invariance of the claim predicates under the name-stage row edits -/

theorem pInn_addNN (i : String) (r : Row) : pInn i (addNN r) = pInn i r := by
  unfold pInn
  rw [cellV_addNN r "inn" (by decide)]

theorem pInn_dropNN (i : String) (r : Row) : pInn i (dropNN r) = pInn i r := by
  unfold pInn
  rw [cellV_dropNN r "inn" (by decide)]

theorem pNoN_addNN (n : String) (r : Row) : pNoN n (addNN r) = pNoN n r := by
  unfold pNoN
  rw [hasInnMask_addNN, nameNormVal_addNN]

theorem pNoN_dropNN (n : String) (r : Row) : pNoN n (dropNN r) = pNoN n r := by
  unfold pNoN
  rw [hasInnMask_dropNN, nameNormVal_dropNN]

theorem noInnB_addNN (r : Row) : (!hasInnMask (addNN r)) = !hasInnMask r := by
  rw [hasInnMask_addNN]

/-- Filtering after a per-row edit that the predicate cannot see commutes. -/
theorem filter_map_comm (f : Row → Row) (p : Row → Bool)
    (hp : ∀ r, p (f r) = p r) (l : List Row) :
    (l.map f).filter p = (l.filter p).map f := by
  rw [List.filter_map]
  exact congrArg (List.map f) (List.filter_congr (fun x _ => hp x))

/-- A map that fixes every member is the identity. -/
theorem map_id_of_mem {l : List Row} {f : Row → Row}
    (h : ∀ x ∈ l, f x = x) : l.map f = l := by
  induction l with
  | nil => rfl
  | cons x xs ih =>
    rw [List.map_cons, h x (List.mem_cons_self x xs),
      ih (fun y hy => h y (List.mem_cons_of_mem x hy))]

/-- The identifier-less partition of the edited rows is the edit of the
identifier-less partition. -/
theorem noInn_map_addNN (rows : List Row) :
    (rows.map addNN).filter (fun r => !hasInnMask r) =
      (rows.filter (fun r => !hasInnMask r)).map addNN :=
  filter_map_comm addNN _ (fun r => noInnB_addNN r) rows

/-- The name stage never touches a row carrying identifier `i` (non-empty):
filtering its output at that identifier sees exactly the input rows there. -/
theorem nameStage_filter_pInn (rows : List Row) {i : String} (hi : i ≠ "")
    (hkeys : ∀ r ∈ rows, "name_normalized" ∉ rowKeys r) :
    (nameStageRows rows).filter (pInn i) = rows.filter (pInn i) := by
  have hdropfix : ∀ x ∈ rows.filter (pInn i), (dropNN ∘ addNN) x = x := by
    intro x hx
    exact dropNN_addNN x (hkeys x (List.mem_filter.mp hx).1)
  simp only [nameStageRows]
  by_cases hlen : ((rows.map addNN).filter (fun r => !hasInnMask r)).length > 0
  · rw [if_pos hlen, filter_map_comm dropNN _ (pInn_dropNN i), List.filter_append]
    have hB : (keepFirst nnKey ((rows.map addNN).filter (fun r => !hasInnMask r))
        []).filter (pInn i) = [] := by
      rw [List.filter_eq_nil_iff]
      intro x hx hpx
      have h1 := (List.mem_filter.mp (mem_of_mem_keepFirst hx)).2
      rw [hasInn_of_pInn hi hpx] at h1
      exact absurd h1 (by decide)
    have hA : ((rows.map addNN).filter hasInnMask).filter (pInn i) =
        (rows.map addNN).filter (pInn i) := by
      rw [List.filter_filter]
      refine List.filter_congr (fun x _ => ?_)
      cases hpx : pInn i x
      · simp
      · simp [hasInn_of_pInn hi hpx]
    rw [hB, List.append_nil, hA, filter_map_comm addNN _ (pInn_addNN i),
      List.map_map]
    exact map_id_of_mem hdropfix
  · rw [if_neg hlen, filter_map_comm dropNN _ (pInn_dropNN i),
      filter_map_comm addNN _ (pInn_addNN i), List.map_map]
    exact map_id_of_mem hdropfix

/-- The name stage keeps exactly the first identifier-less row of each
normalized name: filtering its output at one name key yields the first
input row at that key. -/
theorem nameStage_filter_pNoN (rows : List Row) (n : String)
    (hkeys : ∀ r ∈ rows, "name_normalized" ∉ rowKeys r) :
    (nameStageRows rows).filter (pNoN n) = (rows.filter (pNoN n)).take 1 := by
  have hdropfix : ∀ x ∈ (rows.filter (pNoN n)).take 1, (dropNN ∘ addNN) x = x := by
    intro x hx
    have hx2 : x ∈ rows.filter (pNoN n) := List.take_subset 1 _ hx
    exact dropNN_addNN x (hkeys x (List.mem_filter.mp hx2).1)
  simp only [nameStageRows]
  by_cases hlen : ((rows.map addNN).filter (fun r => !hasInnMask r)).length > 0
  · rw [if_pos hlen, filter_map_comm dropNN _ (pNoN_dropNN n), List.filter_append]
    have hA : ((rows.map addNN).filter hasInnMask).filter (pNoN n) = [] := by
      rw [List.filter_eq_nil_iff]
      intro x hx
      have h1 := (List.mem_filter.mp hx).2
      unfold pNoN
      rw [h1]
      simp
    have hB : (keepFirst nnKey ((rows.map addNN).filter (fun r => !hasInnMask r))
        []).filter (pNoN n) = ((rows.filter (pNoN n)).take 1).map addNN := by
      have hcongr : (keepFirst nnKey ((rows.map addNN).filter (fun r => !hasInnMask r))
          []).filter (pNoN n) =
          (keepFirst nnKey ((rows.map addNN).filter (fun r => !hasInnMask r))
          []).filter (fun r => decide (nnKey r = Value.str n)) := by
        refine List.filter_congr (fun x hx => ?_)
        have hx1 := mem_of_mem_keepFirst hx
        have hxno := (List.mem_filter.mp hx1).2
        have hxm := (List.mem_filter.mp hx1).1
        rcases List.mem_map.mp hxm with ⟨x0, _, hx0⟩
        have hkey : nnKey x = nameNormVal x := by
          rw [← hx0, nnKey_addNN, nameNormVal_addNN]
        unfold pNoN
        rw [hxno, hkey]
        simp
      rw [hcongr, keepFirst_filter_key nnKey (Value.str n) _ [],
        if_neg (by simp), noInn_map_addNN, List.filter_map]
      have hcongr2 : (rows.filter (fun r => !hasInnMask r)).filter
          ((fun r => decide (nnKey r = Value.str n)) ∘ addNN) =
          rows.filter (pNoN n) := by
        rw [List.filter_filter]
        refine List.filter_congr (fun x _ => ?_)
        have hc : ((fun r => decide (nnKey r = Value.str n)) ∘ addNN) x =
            decide (nameNormVal x = Value.str n) := by
          show decide (nnKey (addNN x) = Value.str n) = _
          rw [nnKey_addNN]
        rw [hc]
        unfold pNoN
        exact Bool.and_comm _ _
      rw [hcongr2, List.map_take]
    rw [hA, List.nil_append, hB, List.map_map]
    exact map_id_of_mem hdropfix
  · rw [if_neg hlen, filter_map_comm dropNN _ (pNoN_dropNN n),
      filter_map_comm addNN _ (pNoN_addNN n)]
    have hempty : rows.filter (fun r => !hasInnMask r) = [] := by
      have h0 : (rows.map addNN).filter (fun r => !hasInnMask r) = [] := by
        rcases Nat.eq_zero_or_pos ((rows.map addNN).filter
            (fun r => !hasInnMask r)).length with h1 | h1
        · exact List.length_eq_zero.mp h1
        · exact absurd h1 hlen
      rw [noInn_map_addNN] at h0
      exact List.map_eq_nil_iff.mp h0
    have hnil : rows.filter (pNoN n) = [] := by
      rw [List.filter_eq_nil_iff]
      intro x hx hpx
      unfold pNoN at hpx
      have h1 : (!hasInnMask x) = true := by
        cases h2 : hasInnMask x
        · rfl
        · rw [h2] at hpx
          simp at hpx
      have : x ∈ rows.filter (fun r => !hasInnMask r) :=
        List.mem_filter.mpr ⟨hx, h1⟩
      rw [hempty] at this
      simp at this
    rw [hnil]
    rfl

/-- An identifier-bearing row of the name-stage output was an
identifier-bearing input row: the name pass never produces one. -/
theorem mem_hasInn_of_mem_nameStage {rows : List Row} {r : Row}
    (hkeys : ∀ x ∈ rows, "name_normalized" ∉ rowKeys x)
    (hr : r ∈ nameStageRows rows) (hinn : hasInnMask r = true) :
    r ∈ rows.filter hasInnMask := by
  simp only [nameStageRows] at hr
  by_cases hlen : ((rows.map addNN).filter (fun x => !hasInnMask x)).length > 0
  · rw [if_pos hlen] at hr
    rcases List.mem_map.mp hr with ⟨r1, hr1, hr1d⟩
    rcases List.mem_append.mp hr1 with h | h
    · have hmap := (List.mem_filter.mp h).1
      rcases List.mem_map.mp hmap with ⟨r0, hr0, hr0a⟩
      have hre : r = r0 := by
        rw [← hr1d, ← hr0a, dropNN_addNN r0 (hkeys r0 hr0)]
      refine List.mem_filter.mpr ⟨hre ▸ hr0, ?_⟩
      exact hinn
    · have hno := (List.mem_filter.mp (mem_of_mem_keepFirst h)).2
      have : hasInnMask r1 = true := by
        rw [← hasInnMask_dropNN r1, hr1d]
        exact hinn
      rw [this] at hno
      exact absurd hno (by decide)
  · rw [if_neg hlen] at hr
    rcases List.mem_map.mp hr with ⟨r1, hr1, hr1d⟩
    rcases List.mem_map.mp hr1 with ⟨r0, hr0, hr0a⟩
    have hre : r = r0 := by
      rw [← hr1d, ← hr0a, dropNN_addNN r0 (hkeys r0 hr0)]
    refine List.mem_filter.mpr ⟨hre ▸ hr0, ?_⟩
    exact hinn

/-- Every identifier-bearing input row passes through the name stage. -/
theorem mem_nameStage_of_hasInn {rows : List Row} {r : Row}
    (hkeys : ∀ x ∈ rows, "name_normalized" ∉ rowKeys x)
    (hr : r ∈ rows) (hinn : hasInnMask r = true) :
    r ∈ nameStageRows rows := by
  have hfix : dropNN (addNN r) = r := dropNN_addNN r (hkeys r hr)
  have hmap : addNN r ∈ rows.map addNN := List.mem_map.mpr ⟨r, hr, rfl⟩
  have hmask : hasInnMask (addNN r) = true := by
    rw [hasInnMask_addNN]
    exact hinn
  simp only [nameStageRows]
  by_cases hlen : ((rows.map addNN).filter (fun x => !hasInnMask x)).length > 0
  · rw [if_pos hlen]
    have h1 : addNN r ∈ (rows.map addNN).filter hasInnMask ++
        keepFirst nnKey ((rows.map addNN).filter (fun x => !hasInnMask x)) [] :=
      List.mem_append.mpr (Or.inl (List.mem_filter.mpr ⟨hmap, hmask⟩))
    have := List.mem_map.mpr ⟨addNN r, h1, hfix⟩
    exact this
  · rw [if_neg hlen]
    exact List.mem_map.mpr ⟨addNN r, hmap, hfix⟩

/-- The final full-row duplicate pass keeps exactly the set of row values. -/
theorem mem_keepFirst_id_iff {x : Row} {l : List Row} :
    x ∈ keepFirst id l [] ↔ x ∈ l :=
  ⟨mem_of_mem_keepFirst, fun h => mem_keepFirst_id h (by simp)⟩

/-- If exactly one row of the list satisfies `p`, the full-row duplicate
pass keeps exactly that row among those satisfying `p`. -/
theorem keepFirst_id_filter_singleton {l : List Row} {p : Row → Bool} {a : Row}
    (h : l.filter p = [a]) : (keepFirst id l []).filter p = [a] := by
  have hsub : ((keepFirst id l []).filter p).Sublist (l.filter p) :=
    List.Sublist.filter p (keepFirst_sublist id l [])
  rw [h] at hsub
  have hmem : a ∈ l.filter p := by
    rw [h]
    exact List.mem_cons_self a []
  have ham : a ∈ (keepFirst id l []).filter p :=
    List.mem_filter.mpr
      ⟨mem_keepFirst_id_iff.mpr (List.mem_filter.mp hmem).1,
       (List.mem_filter.mp hmem).2⟩
  exact sublist_singleton_of_mem hsub ham

/-- With both guard columns present, `deduplicate` runs all three steps. -/
theorem deduplicate_ok (df : DataFrame) (hinn : "inn" ∈ df.cols)
    (hname : "name" ∈ df.cols) :
    deduplicate df = Except.ok ⟨df.cols.filter (fun c => c ≠ "name_normalized"),
      keepFirst id (nameStageRows (innStageRows df.rows)) []⟩ := by
  simp [deduplicate, hinn, hname]

/-- Well-formed frames give every resolver-stage row `name_normalized`-free
keys. -/
theorem innStage_keys {df : DataFrame} (hWF : WF df) :
    ∀ r ∈ innStageRows df.rows, "name_normalized" ∉ rowKeys r := by
  intro r hr
  have hk := hWF.2.2.2.1 r (mem_of_mem_innStage hr)
  rw [hk]
  exact hWF.2.2.1

theorem pInn_innKey_form (i : String) :
    pInn i = fun r => decide (innKey r = Value.str i) := rfl

/-- C3: in a well-formed frame holding exactly two records with the same
non-empty identifier `i`, with revenues 2,000,000 (record `a`) and
1,000,000 (record `b`), `Deduplicator.deduplicate` succeeds and the only
surviving record with identifier `i` is `a` — whatever the input order of
`a` and `b` and whatever the rest of the frame holds. -/
theorem resolver_identifier_priority (df : DataFrame) (i : String) (a b : Row)
    (hWF : WF df) (hi : i ≠ "")
    (ha : a ∈ df.rows) (hai : cellV a "inn" = Value.str i)
    (har : cellInt a "revenue" = 2000000)
    (hb : b ∈ df.rows) (hbi : cellV b "inn" = Value.str i)
    (hbr : cellInt b "revenue" = 1000000)
    (huniq : ∀ r ∈ df.rows, cellV r "inn" = Value.str i → r = a ∨ r = b) :
    ∃ out, deduplicate df = Except.ok out ∧ out.rows.filter (pInn i) = [a] := by
  have hpa : pInn i a = true := by
    unfold pInn
    rw [hai]
    simp
  have hanb : a ≠ b := by
    intro h
    rw [h, hbr] at har
    exact absurd har (by decide)
  have hba : dedupLe b a = false := by
    unfold dedupLe
    rw [har, hbr, if_neg (by decide)]
    decide
  -- the sorted identifier-bearing partition, filtered at identifier i
  have hawi : a ∈ df.rows.filter hasInnMask :=
    List.mem_filter.mpr ⟨ha, hasInn_of_pInn hi hpa⟩
  have haL : a ∈ (sortRows dedupLe (df.rows.filter hasInnMask)).filter (pInn i) :=
    List.mem_filter.mpr ⟨mem_sortRows.mpr hawi, hpa⟩
  have hLmem : ∀ x ∈ (sortRows dedupLe (df.rows.filter hasInnMask)).filter (pInn i),
      x = a ∨ x = b := by
    intro x hx
    have hx1 := List.mem_filter.mp hx
    have hx2 : x ∈ df.rows := (List.mem_filter.mp (mem_sortRows.mp hx1.1)).1
    have hx3 : cellV x "inn" = Value.str i := by
      have := hx1.2
      unfold pInn at this
      exact of_decide_eq_true this
    exact huniq x hx2 hx3
  have hLpw : ((sortRows dedupLe (df.rows.filter hasInnMask)).filter
      (pInn i)).Pairwise (fun x y => dedupLe x y = true) :=
    List.Pairwise.sublist (List.filter_sublist _)
      (sortRows_pairwise dedupLe_total dedupLe_trans _)
  -- the head of that filtered sorted list is a
  have hL1 : ((sortRows dedupLe (df.rows.filter hasInnMask)).filter
      (pInn i)).take 1 = [a] := by
    cases hL : (sortRows dedupLe (df.rows.filter hasInnMask)).filter (pInn i) with
    | nil =>
      rw [hL] at haL
      simp at haL
    | cons hd tl =>
      have hhd : hd = a ∨ hd = b := hLmem hd (by rw [hL]; exact List.mem_cons_self hd tl)
      rcases hhd with hhd | hhd
      · rw [hhd]
        rfl
      · exfalso
        have hat : a ∈ tl := by
          rw [hL] at haL
          rcases List.mem_cons.mp haL with h | h
          · exact absurd (h.trans hhd) hanb
          · exact h
        have hpw := hLpw
        rw [hL] at hpw
        have := (List.pairwise_cons.mp hpw).1 a hat
        rw [hhd] at this
        rw [hba] at this
        exact absurd this (by decide)
  -- survivors of the identifier stage at identifier i
  have hsurv : (innSurvivors df.rows).filter (pInn i) = [a] := by
    rw [innSurvivors_eq, pInn_innKey_form i,
      keepFirst_filter_key innKey (Value.str i) _ [], if_neg (by simp),
      ← pInn_innKey_form i]
    exact hL1
  have hstage1 : (innStageRows df.rows).filter (pInn i) = [a] := by
    rw [filter_pInn_innStage df.rows hi, hsurv]
  have hstage2 : (nameStageRows (innStageRows df.rows)).filter (pInn i) = [a] := by
    rw [nameStage_filter_pInn (innStageRows df.rows) hi (innStage_keys hWF)]
    exact hstage1
  refine ⟨_, deduplicate_ok df hWF.1 hWF.2.1, ?_⟩
  exact keepFirst_id_filter_singleton hstage2

/-- The identifier stage leaves the identifier-less rows' filter intact. -/
theorem filter_pNoN_innStage (rows : List Row) (n : String) :
    (innStageRows rows).filter (pNoN n) = rows.filter (pNoN n) := by
  unfold innStageRows
  rw [List.filter_append]
  have h1 : (innSurvivors rows).filter (pNoN n) = [] := by
    rw [List.filter_eq_nil_iff]
    intro x hx
    unfold pNoN
    rw [hasInn_of_mem_innSurvivors hx]
    simp
  have h2 : (rows.filter (fun r => !hasInnMask r)).filter (pNoN n) =
      rows.filter (pNoN n) := by
    rw [List.filter_filter]
    refine List.filter_congr (fun x _ => ?_)
    cases hp : pNoN n x
    · simp
    · unfold pNoN at hp
      cases hm : hasInnMask x
      · simp
      · rw [hm] at hp
        simp at hp
  rw [h1, h2, List.nil_append]

/-- C4: in a well-formed frame, let `a` be the first identifier-less record
whose lowercased, trimmed name is `n`.  `Deduplicator.deduplicate` succeeds,
the only surviving identifier-less record with that normalized name is `a`
(first-seen wins, whatever the revenues of later duplicates), and the
surviving identifier-bearing records are exactly the identifier-stage
survivors — name deduplication never touches them. -/
theorem resolver_name_fallback (df : DataFrame) (n : String) (a : Row)
    (hWF : WF df)
    (ha : (df.rows.filter (pNoN n)).head? = some a) :
    ∃ out, deduplicate df = Except.ok out ∧
      out.rows.filter (pNoN n) = [a] ∧
      (∀ r : Row, (r ∈ out.rows ∧ hasInnMask r = true) ↔
        r ∈ innSurvivors df.rows) := by
  have hstage2 : (nameStageRows (innStageRows df.rows)).filter (pNoN n) = [a] := by
    rw [nameStage_filter_pNoN (innStageRows df.rows) n (innStage_keys hWF),
      filter_pNoN_innStage df.rows n, List.take_one, ha]
    rfl
  refine ⟨_, deduplicate_ok df hWF.1 hWF.2.1, ?_, ?_⟩
  · exact keepFirst_id_filter_singleton hstage2
  · intro r
    constructor
    · rintro ⟨hr, hinn⟩
      have hr1 : r ∈ nameStageRows (innStageRows df.rows) := mem_of_mem_keepFirst hr
      have hr2 := mem_hasInn_of_mem_nameStage (innStage_keys hWF) hr1 hinn
      rw [filter_hasInn_innStage] at hr2
      exact hr2
    · intro hr
      have hinn := hasInn_of_mem_innSurvivors hr
      have hr1 : r ∈ innStageRows df.rows := by
        unfold innStageRows
        exact List.mem_append.mpr (Or.inl hr)
      have hr2 := mem_nameStage_of_hasInn (innStage_keys hWF) hr1 hinn
      exact ⟨mem_keepFirst_id_iff.mpr hr2, hinn⟩

/-- C1 (observed behaviour): the range input `"200-500 млн"` evaluates to
200 — the range split runs before the magnitude keyword search, so the
million keyword is cut away with the upper bound, contradicting the
function's own docstring value 200,000,000.  The remaining documented
examples hold, as does case-insensitivity. -/
theorem revenue_parsing_examples :
    normalize_revenue "200-500 млн" = 200 ∧
    normalize_revenue "от 500 млн" = 500000000 ∧
    normalize_revenue "150 тыс" = 150000 ∧
    normalize_revenue "" = 0 ∧
    normalize_revenue "no numbers here" = 0 ∧
    normalize_revenue "200-500 МЛН" = normalize_revenue "200-500 млн" ∧
    normalize_revenue "150000000" = 150000000 := by
  decide

/-- C5: identifier cleaning is idempotent. -/
theorem clean_inn_idempotent (s : String) :
    clean_inn (clean_inn s) = clean_inn s := by
  by_cases h : s = ""
  · subst h
    decide
  · by_cases hlen : (s.toList.filter Char.isDigit).length = 10 ∨
        (s.toList.filter Char.isDigit).length = 12
    · have hs : clean_inn s = String.mk (s.toList.filter Char.isDigit) := by
        simp only [clean_inn]
        rw [if_neg h, if_pos hlen]
      rw [hs]
      have hne : String.mk (s.toList.filter Char.isDigit) ≠ "" := by
        intro hc
        have hdata : (s.toList.filter Char.isDigit) = [] := congrArg String.data hc
        rw [hdata] at hlen
        simp at hlen
      have hfil : (s.toList.filter Char.isDigit).filter Char.isDigit =
          s.toList.filter Char.isDigit :=
        List.filter_eq_self.mpr (fun x hx => (List.mem_filter.mp hx).2)
      simp only [clean_inn]
      rw [if_neg hne]
      show (if ((String.mk (s.toList.filter Char.isDigit)).toList.filter
          Char.isDigit).length = 10 ∨ _ then _ else _) = _
      have htl : (String.mk (s.toList.filter Char.isDigit)).toList =
          s.toList.filter Char.isDigit := rfl
      rw [htl, hfil, if_pos hlen]
    · have hs : clean_inn s = "" := by
        simp only [clean_inn]
        rw [if_neg h, if_neg hlen]
      rw [hs]
      decide

/-- C6: `clean_inn` strips every non-digit and returns the digits exactly
when 10 or 12 remain, the empty string otherwise; being a total function of
the embedding, it raises nothing. -/
theorem clean_inn_characterization (s : String) :
    clean_inn s =
      if (s.toList.filter Char.isDigit).length = 10 ∨
          (s.toList.filter Char.isDigit).length = 12 then
        String.mk (s.toList.filter Char.isDigit)
      else "" := by
  by_cases h : s = ""
  · subst h
    decide
  · simp only [clean_inn]
    rw [if_neg h]

/-- C7: with both columns present, the geography and financial-threshold
filters commute — the revenue decision of a record does not depend on the
prior geography pass. -/
theorem filter_commutes (df : DataFrame) (minRev : Int)
    (h1 : "region" ∈ df.cols) (h2 : "revenue" ∈ df.cols) :
    filter_by_revenue minRev (filter_by_country df) =
      filter_by_country (filter_by_revenue minRev df) := by
  simp only [filter_by_country, filter_by_revenue, h1, h2, if_pos, ite_true]
  rw [List.filter_filter, List.filter_filter]
  exact congrArg (DataFrame.mk df.cols)
    (List.filter_congr (fun x _ => Bool.and_comm _ _))

/-- C8: a record with empty or missing `region` and empty or missing
`status` survives the geography filter and the activity filter, whatever
its other fields. -/
theorem default_admit (df : DataFrame) (r : Row) (hr : r ∈ df.rows)
    (hreg : cellV r "region" = Value.str "" ∨ cellV r "region" = Value.na)
    (hst : cellV r "status" = Value.str "" ∨ cellV r "status" = Value.na) :
    r ∈ (filter_by_country df).rows ∧
      r ∈ (filter_active_companies df).rows := by
  constructor
  · unfold filter_by_country
    by_cases h : "region" ∈ df.cols
    · rw [if_pos h]
      refine List.mem_filter.mpr ⟨hr, ?_⟩
      unfold countryMask
      rcases hreg with h2 | h2 <;> rw [h2] <;> simp
    · rw [if_neg h]
      exact hr
  · unfold filter_active_companies
    by_cases h : "status" ∈ df.cols
    · rw [if_pos h]
      refine List.mem_filter.mpr ⟨hr, ?_⟩
      unfold activeMask
      rcases hst with h2 | h2 <;> rw [h2] <;> simp
    · rw [if_neg h]
      exact hr

/-- C10: a frame with a `name` column but no `inn` column makes
`Deduplicator.deduplicate` raise `KeyError` — the guard protects only the
identifier step, while the name step reads `inn` unconditionally. -/
theorem dedup_missing_inn_keyerror (df : DataFrame)
    (hname : "name" ∈ df.cols) (hinn : "inn" ∉ df.cols) :
    deduplicate df = Except.error "KeyError: inn" := by
  simp [deduplicate, hname, hinn]

/-- C9: the export stage never changes the row count, keeps only columns
already present, and — when a `revenue` column exists — emits the rows in
descending revenue order. -/
theorem ranker_frame (df : DataFrame) :
    (exportStage df).rows.length = df.rows.length ∧
    (∀ c ∈ (exportStage df).cols, c ∈ df.cols) ∧
    ("revenue" ∈ df.cols →
      (exportStage df).rows.Pairwise
        (fun x y => cellInt y "revenue" ≤ cellInt x "revenue")) := by
  simp only [exportStage]
  by_cases hrev : "revenue" ∈ column_order.filter (fun c => c ∈ df.cols)
  · rw [if_pos hrev]
    refine ⟨?_, ?_, ?_⟩
    · rw [(sortRows_perm exportLe _).length_eq, List.length_map]
    · intro c hc
      have := List.mem_filter.mp hc
      exact of_decide_eq_true this.2
    · intro _
      refine (sortRows_pairwise exportLe_total exportLe_trans _).imp ?_
      intro x y h
      exact of_decide_eq_true h
  · rw [if_neg hrev]
    refine ⟨List.length_map _ _, ?_, ?_⟩
    · intro c hc
      have := List.mem_filter.mp hc
      exact of_decide_eq_true this.2
    · intro hin
      have hmem : "revenue" ∈ column_order.filter (fun c => c ∈ df.cols) :=
        List.mem_filter.mpr ⟨by decide, decide_eq_true hin⟩
      exact absurd hmem hrev

/-! ### The end-to-end scenario frame and the witness frames -/

/-- Columns of the end-to-end scenario frame. -/
def testCols : List String :=
  ["inn", "name", "revenue", "revenue_year", "region", "status", "segment_tag"]

/-- Build a scenario row over `testCols`. -/
def mkRow (inn name : String) (rev year : Int) (region status seg : String) : Row :=
  [("inn", Value.str inn), ("name", Value.str name), ("revenue", Value.int rev),
   ("revenue_year", Value.int year), ("region", Value.str region),
   ("status", Value.str status), ("segment_tag", Value.str seg)]

def rowA1 : Row := mkRow "1234567890" "Company A" 1000000 2023 "" "" ""
def rowA2 : Row := mkRow "1234567890" "Company A" 2000000 2023 "" "" ""
def rowB1 : Row := mkRow "" "Company B" 500000 2023 "" "" ""
def rowB2 : Row := mkRow "" "Company B" 600000 2023 "" "" ""
def rowC : Row := mkRow "9876543210" "Company C" 300000000 2023 "Москва" "Действующая" "BTL"

/-- The spec's five-record end-to-end input. -/
def testDf : DataFrame := ⟨testCols, [rowA1, rowA2, rowB1, rowB2, rowC]⟩

/-- C2: the resolver keeps exactly the 2,000,000-revenue record of the
shared identifier, the first `Company B` (500,000), and the unique record;
the validator at threshold 200,000,000 then keeps only the unique record. -/
theorem end_to_end_scenario :
    deduplicate testDf = Except.ok ⟨testCols, [rowC, rowA2, rowB1]⟩ ∧
    ([rowC, rowA2, rowB1] : List Row).length = 3 ∧
    validate 200000000 ⟨testCols, [rowC, rowA2, rowB1]⟩ = ⟨testCols, [rowC]⟩ := by
  decide

/-- Columns of the two-record resolver witness frames. -/
def wCols : List String := ["inn", "name", "revenue", "revenue_year"]

def wRowHi : Row :=
  [("inn", Value.str "1234567890"), ("name", Value.str "Alpha"),
   ("revenue", Value.int 2000000), ("revenue_year", Value.int 2023)]

def wRowLo : Row :=
  [("inn", Value.str "1234567890"), ("name", Value.str "Alpha Copy"),
   ("revenue", Value.int 1000000), ("revenue_year", Value.int 2022)]

/-- Same identifier twice, the 1,000,000-revenue record first. -/
def wDfInn : DataFrame := ⟨wCols, [wRowLo, wRowHi]⟩

theorem resolver_identifier_priority_witness :
    (deduplicate wDfInn).map (fun d => d.rows.filter (pInn "1234567890")) =
      Except.ok [wRowHi] := by
  rcases resolver_identifier_priority wDfInn "1234567890" wRowHi wRowLo
      (by decide) (by decide) (by decide) (by decide) (by decide)
      (by decide) (by decide) (by decide) (by decide) with ⟨out, h1, h2⟩
  rw [h1]
  simp [Except.map, h2]

def wRowN1 : Row :=
  [("inn", Value.str ""), ("name", Value.str "Beta"),
   ("revenue", Value.int 500000), ("revenue_year", Value.int 2023)]

def wRowN2 : Row :=
  [("inn", Value.str ""), ("name", Value.str " BETA "),
   ("revenue", Value.int 600000), ("revenue_year", Value.int 2023)]

/-- Two identifier-less records with the same normalized name, the
lower-revenue record first. -/
def wDfName : DataFrame := ⟨wCols, [wRowN1, wRowN2]⟩

theorem resolver_name_fallback_witness :
    (deduplicate wDfName).map (fun d => d.rows.filter (pNoN "beta")) =
      Except.ok [wRowN1] := by
  rcases resolver_name_fallback wDfName "beta" wRowN1 (by decide) (by decide)
    with ⟨out, h1, h2, _⟩
  rw [h1]
  simp [Except.map, h2]

theorem filter_commutes_witness :
    filter_by_revenue 200000000 (filter_by_country testDf) =
      filter_by_country (filter_by_revenue 200000000 testDf) :=
  filter_commutes testDf 200000000 (by decide) (by decide)

theorem default_admit_witness :
    rowB1 ∈ (filter_by_country testDf).rows ∧
      rowB1 ∈ (filter_active_companies testDf).rows :=
  default_admit testDf rowB1 (by decide) (by decide) (by decide)

theorem ranker_frame_witness :
    (exportStage testDf).rows.length = testDf.rows.length ∧
      (exportStage testDf).rows.Pairwise
        (fun x y => cellInt y "revenue" ≤ cellInt x "revenue") :=
  ⟨(ranker_frame testDf).1, (ranker_frame testDf).2.2 (by decide)⟩

/-- A frame with a `name` column and no `inn` column. -/
def wDfNoInn : DataFrame := ⟨["name"], [[("name", Value.str "Orphan")]]⟩

theorem dedup_missing_inn_keyerror_witness :
    deduplicate wDfNoInn = Except.error "KeyError: inn" :=
  dedup_missing_inn_keyerror wDfNoInn (by decide) (by decide)
